import Mathlib

/-
Verification development for the Tactics marketing-intelligence core.

The repository ships its algorithm code as Python snippets inside the
technical documentation (src/docs/archive/implementation_plan.md,
src/docs/technical/ALGORITHMS.md, src/docs/technical/ALGORITHM_MAINTENANCE.md);
the referenced implementation files (core/optimizer.py, core/engine.py,
core/model_registry.py, core/drift_detector.py) are not part of the tree.
Definitions below are shallow embeddings of those snippets; where only the
documented contract of a missing file is available, the definition carries a
doc comment starting with the words Modelled from the spec. Floating-point
arithmetic is modelled by exact rational arithmetic where the code is
executable, and the Hill saturation curve is additionally embedded over the
reals with its shape exponent as a real rpow exponent, so that the documented
fractional channel shapes (0.8, 0.5, 0.3) are inside the theorems about it.
-/

namespace Tactics

/-- Embedding of sales_model / saturation_function / hill_saturation from
implementation_plan.md and ALGORITHMS.md: alpha * (x ^ gamma / (x ^ gamma + 1))
with the float shape exponent gamma as a real exponent (rpow), covering the
documented fractional channel shapes. -/
noncomputable def hill_saturation (alpha gamma x : ℝ) : ℝ :=
  alpha * (x ^ gamma / (x ^ gamma + 1))

/-- Executable rational restriction of hill_saturation to natural shape
exponents, used as the grid objective of the budget-optimizer model, where a
computable objective is needed; it agrees with hill_saturation on its domain
(sales_model_eq_hill). -/
def sales_model (alpha : ℚ) (gamma : ℕ) (x : ℚ) : ℚ :=
  alpha * (x ^ gamma / (x ^ gamma + 1))

/-- Shared recurrence kernel of the adstock transforms: each output element is
the current spend plus decay times the previous output element. -/
def adstock_go (decay : ℚ) (prev : ℚ) : List ℚ → List ℚ
  | [] => []
  | s :: ss => (s + decay * prev) :: adstock_go decay (s + decay * prev) ss

/-- Embedding of adstock_filter from implementation_plan.md: the output array
is initialised to zeros and the loop runs from index 1, so the element at
index 0 is left at 0 and the spend at index 0 never enters the recurrence. -/
def adstock_filter (spending : List ℚ) (decay : ℚ) : List ℚ :=
  match spending with
  | [] => []
  | _ :: rest => 0 :: adstock_go decay 0 rest

/-- Embedding of adstock_geometric as documented in ALGORITHMS.md:
adstock at t equals spending at t plus decay times adstock at t - 1, with the
natural base case that the output at index 0 is the spend at index 0
(the recurrence with an implicit zero predecessor). -/
def adstock_geometric (spending : List ℚ) (decay : ℚ) : List ℚ :=
  match spending with
  | [] => []
  | s :: rest => s :: adstock_go decay s rest

/-- The five labels produced by segmentar_clientes in implementation_plan.md. -/
inductive Segmento where
  | altoRiesgoVIP
  | clientePerdido
  | clienteLeal
  | potencialBallena
  | estandar
deriving DecidableEq

/-- Embedding of the row-level logic of segmentar_clientes from
implementation_plan.md: a first-match chain of threshold tests over
prob_alive, clv_12m and expected_purchases_90d, ending in a default branch. -/
def segmentar_logic (prob_alive clv_12m expected_purchases_90d : ℚ) : Segmento :=
  if prob_alive < 3/10 ∧ clv_12m > 100 then .altoRiesgoVIP
  else if prob_alive < 3/10 then .clientePerdido
  else if prob_alive > 8/10 ∧ expected_purchases_90d > 1 then .clienteLeal
  else if clv_12m > 500 then .potencialBallena
  else .estandar

/-- One row of the RFM table consumed by DataScienceCore.predict. -/
structure RFMRow where
  frequency : ℕ
  recency : ℚ
  T : ℚ
  monetary_value : ℚ
deriving DecidableEq

/-- Embedding of the returning-customer mask of DataScienceCore.predict:
frequency strictly positive and monetary value strictly positive. -/
def rfm_returning (rfm : List RFMRow) : List RFMRow :=
  rfm.filter (fun r => decide (0 < r.frequency) && decide (0 < r.monetary_value))

/-- Embedding of the guard of DataScienceCore.predict from
implementation_plan.md: if fewer than 10 returning customers exist, the method
returns None; otherwise it fits the models and returns the enriched table.
The numeric columns computed by the external lifetimes library are not
modelled; only the presence or absence of a fitted result is. -/
def predict (rfm : List RFMRow) : Option (List RFMRow) :=
  if (rfm_returning rfm).length < 10 then none else some rfm

/-- Helper: closed form of the adstock recurrence kernel. Element t of the
kernel output is the decay-weighted sum of the input elements up to t plus the
fully decayed carried-in value. -/
theorem adstock_go_closed_form (decay prev : ℚ) (ss : List ℚ) (t : ℕ)
    (ht : t < ss.length) :
    (adstock_go decay prev ss).getD t 0 =
      decay ^ (t + 1) * prev + ∑ k ∈ Finset.range (t + 1), decay ^ k * ss.getD (t - k) 0 := by
  induction ss generalizing prev t with
  | nil => simp at ht
  | cons s ss ih =>
    cases t with
    | zero =>
      simp [adstock_go, Finset.sum_range_one]
      ring
    | succ t =>
      have ht' : t < ss.length := by simpa using ht
      have hsum : ∑ k ∈ Finset.range (t + 1), decay ^ k * (s :: ss).getD (t + 1 - k) 0
          = ∑ k ∈ Finset.range (t + 1), decay ^ k * ss.getD (t - k) 0 := by
        refine Finset.sum_congr rfl ?_
        intro k hk
        have hk' : k ≤ t := Nat.lt_succ_iff.mp (Finset.mem_range.mp hk)
        have hidx : t + 1 - k = (t - k) + 1 := by omega
        rw [hidx, List.getD_cons_succ]
      simp only [adstock_go, List.getD_cons_succ]
      rw [Finset.sum_range_succ, hsum, ih (s + decay * prev) t ht']
      simp only [Nat.sub_self, List.getD_cons_zero]
      ring

/-- Helper: the ALGORITHMS.md geometric adstock recurrence has the closed form
of a decay-weighted sum of current and past spend, and its first element is the
first spend. -/
theorem adstock_geometric_closed_form (spending : List ℚ) (decay : ℚ) (t : ℕ)
    (ht : t < spending.length) :
    (adstock_geometric spending decay).getD t 0 =
      ∑ k ∈ Finset.range (t + 1), decay ^ k * spending.getD (t - k) 0 := by
  cases spending with
  | nil => simp at ht
  | cons s ss =>
    cases t with
    | zero => simp [adstock_geometric]
    | succ t =>
      have ht' : t < ss.length := by simpa using ht
      have hsum : ∑ k ∈ Finset.range (t + 1), decay ^ k * (s :: ss).getD (t + 1 - k) 0
          = ∑ k ∈ Finset.range (t + 1), decay ^ k * ss.getD (t - k) 0 := by
        refine Finset.sum_congr rfl ?_
        intro k hk
        have hk' : k ≤ t := Nat.lt_succ_iff.mp (Finset.mem_range.mp hk)
        have hidx : t + 1 - k = (t - k) + 1 := by omega
        rw [hidx, List.getD_cons_succ]
      simp only [adstock_geometric, List.getD_cons_succ]
      rw [Finset.sum_range_succ, hsum, adstock_go_closed_form decay s ss t ht']
      simp only [Nat.sub_self, List.getD_cons_zero]
      ring

/-- C3: the archived adstock_filter loses the first spend entirely. On the
input series 1, 2 with decay one half the code returns 0, 2 (index 0 is left
at its zero initialisation and spending at index 0 never contributes), while
the documented geometric recurrence, whose closed form is the decay-weighted
sum proved in adstock_geometric_closed_form, returns 1, 5/2. -/
theorem adstock_filter_drops_first_spend :
    adstock_filter [1, 2] (1/2) = [0, 2] ∧
    adstock_geometric [1, 2] (1/2) = [1, 5/2] := by
  norm_num [adstock_filter, adstock_geometric, adstock_go]

/-- Helper: the executable rational objective agrees with the real Hill
curve at natural shape exponents, so the optimizer grid objective is the
restriction of the embedded saturation family. -/
theorem sales_model_eq_hill (alpha : ℚ) (gamma : ℕ) (x : ℚ) :
    ((sales_model alpha gamma x : ℚ) : ℝ) =
      hill_saturation (alpha : ℝ) (gamma : ℝ) (x : ℝ) := by
  unfold sales_model hill_saturation
  rw [Real.rpow_natCast]
  push_cast
  ring

/-- C2: the Hill saturation vanishes at zero spend, is strictly increasing on
nonnegative spend, and stays strictly below the ceiling alpha, for every
positive real ceiling and every positive real shape exponent, the documented
fractional channel shapes included. -/
theorem hill_saturation_monotone_bounded (alpha gamma x y : ℝ)
    (ha : 0 < alpha) (hg : 0 < gamma) (hx : 0 ≤ x) (hxy : x < y) :
    hill_saturation alpha gamma 0 = 0 ∧
    hill_saturation alpha gamma x < hill_saturation alpha gamma y ∧
    hill_saturation alpha gamma x < alpha := by
  have hxp : (0:ℝ) ≤ x ^ gamma := Real.rpow_nonneg hx gamma
  have hlt : x ^ gamma < y ^ gamma := Real.rpow_lt_rpow hx hxy hg
  have h1 : (0:ℝ) < x ^ gamma + 1 := by linarith
  have h2 : (0:ℝ) < y ^ gamma + 1 := by linarith
  refine ⟨?_, ?_, ?_⟩
  · unfold hill_saturation
    rw [Real.zero_rpow (ne_of_gt hg)]
    norm_num
  · unfold hill_saturation
    have hdiv : x ^ gamma / (x ^ gamma + 1) < y ^ gamma / (y ^ gamma + 1) := by
      rw [div_lt_div_iff₀ h1 h2]
      nlinarith
    exact mul_lt_mul_of_pos_left hdiv ha
  · unfold hill_saturation
    have hdiv : x ^ gamma / (x ^ gamma + 1) < 1 := by
      rw [div_lt_one h1]
      linarith
    calc alpha * (x ^ gamma / (x ^ gamma + 1)) < alpha * 1 :=
          mul_lt_mul_of_pos_left hdiv ha
      _ = alpha := mul_one alpha

/-- C2 witness: the saturation properties instantiated at ceiling 2, the
documented fractional shape 0.8, and spends 1 and 2. -/
theorem hill_saturation_monotone_bounded_witness :
    hill_saturation 2 (4/5) 0 = 0 ∧
    hill_saturation 2 (4/5) 1 < hill_saturation 2 (4/5) 2 ∧
    hill_saturation 2 (4/5) 1 < 2 :=
  hill_saturation_monotone_bounded 2 (4/5) 1 2 (by norm_num) (by norm_num)
    (by norm_num) (by norm_num)

/-- C10: for every real ceiling and every positive real shape exponent, the
Hill curve evaluated at spend 1 is exactly half the ceiling: the
half-saturation point is pinned at one spend unit, independent of the shape,
because the formula has no scale parameter. -/
theorem hill_saturation_half_at_one (alpha gamma : ℝ) (hg : 0 < gamma) :
    hill_saturation alpha gamma 1 = alpha / 2 := by
  unfold hill_saturation
  rw [Real.one_rpow]
  ring

/-- C10 witness: at ceiling 6 and the documented fractional shape 0.8 the
value at spend 1 is 6 / 2. -/
theorem hill_saturation_half_at_one_witness :
    hill_saturation 6 (4/5) 1 = 6 / 2 :=
  hill_saturation_half_at_one 6 (4/5) (by norm_num)

/-- C8: the segmentation classifier is total and mutually exclusive: each of
the five labels is produced exactly on its own region of inputs, the five
regions are pairwise disjoint, and together they cover every input, so exactly
one label is produced per input with no unhandled case. -/
theorem segmentar_total_exclusive (p v e : ℚ) :
    (segmentar_logic p v e = .altoRiesgoVIP ↔ p < 3/10 ∧ v > 100) ∧
    (segmentar_logic p v e = .clientePerdido ↔ p < 3/10 ∧ ¬ v > 100) ∧
    (segmentar_logic p v e = .clienteLeal ↔ ¬ p < 3/10 ∧ p > 8/10 ∧ e > 1) ∧
    (segmentar_logic p v e = .potencialBallena ↔
      ¬ p < 3/10 ∧ ¬ (p > 8/10 ∧ e > 1) ∧ v > 500) ∧
    (segmentar_logic p v e = .estandar ↔
      ¬ p < 3/10 ∧ ¬ (p > 8/10 ∧ e > 1) ∧ ¬ v > 500) := by
  unfold segmentar_logic
  split_ifs with h1 h2 h3 h4 <;> simp_all

/-- C9 counterexample: a customer whose predictions match no specific branch,
as happens for a customer below the minimum-history threshold, receives the
default ESTANDAR label; there is no InsufficientData label in the codomain of
the classifier. -/
theorem segmentar_below_threshold_gets_default :
    segmentar_logic (1/2) 0 0 = Segmento.estandar := by
  norm_num [segmentar_logic]

/-- C9 amended: the classifier never receives the history length and has no
InsufficientData label; every input that fails the three specific branch
conditions, including a low-history customer, gets the default ESTANDAR label. -/
theorem segmentar_no_insufficient_label (p v e : ℚ)
    (h1 : ¬ p < 3/10) (h2 : ¬ (p > 8/10 ∧ e > 1)) (h3 : ¬ v > 500) :
    segmentar_logic p v e = Segmento.estandar := by
  have c1 : ¬ (p < 3/10 ∧ v > 100) := fun hc => h1 hc.1
  simp [segmentar_logic, c1, h1, h2, h3]

/-- C9 witness: a customer with prob_alive one half, predicted value 1 and no
expected purchases gets the default label. -/
theorem segmentar_no_insufficient_label_witness :
    segmentar_logic (1/2) 1 0 = Segmento.estandar :=
  segmentar_no_insufficient_label (1/2) 1 0 (by norm_num) (by norm_num) (by norm_num)

/-- C4 counterexample: an input with exactly 10 returning customers, far below
the recommended minimum of about 30 repeat customers, makes predict return a
fitted result rather than the explicit no-result. -/
theorem predict_fits_below_thirty_returning :
    (Tactics.predict (List.replicate 10 ⟨1, 1, 2, 5⟩)).isSome = true ∧
    (rfm_returning (List.replicate 10 ⟨1, 1, 2, 5⟩)).length < 30 := by
  constructor <;> norm_num [predict, rfm_returning, List.replicate, List.filter]

/-- C4 amended: the guard threshold of DataScienceCore.predict is 10 returning
customers, not about 30, and below it the method returns None, an explicit
absence of a result, rather than a fitted parameter set. -/
theorem predict_insufficient_data (rfm : List Tactics.RFMRow)
    (h : (rfm_returning rfm).length < 10) : Tactics.predict rfm = none := by
  simp [predict, h]

/-- C4 witness: the empty input has no returning customers and predict
returns None on it. -/
theorem predict_insufficient_data_witness : Tactics.predict [] = none :=
  predict_insufficient_data [] (by simp [rfm_returning])

/-- Embedding of objective_function from implementation_plan.md: the negated
total of per-channel saturated sales over paired budgets and channel
parameters. -/
def objective_function (channel_params : List (ℚ × ℕ)) (budgets : List ℚ) : ℚ :=
  -(((budgets.zip channel_params).map (fun bp => sales_model bp.2.1 bp.2.2 bp.1)).sum)

/-- All length-k lists of naturals summing to n: the discrete feasible set
searched by the grid model of the constrained solver. -/
def compositions : ℕ → ℕ → List (List ℕ)
  | 0, n => if n = 0 then [[]] else []
  | k + 1, n => (List.range (n + 1)).flatMap (fun j => (compositions k (n - j)).map (j :: ·))

/-- Helper: members of the feasible grid have the right length and sum. -/
theorem mem_compositions (k : ℕ) : ∀ (n : ℕ) (c : List ℕ),
    c ∈ compositions k n → c.length = k ∧ c.sum = n := by
  induction k with
  | zero =>
    intro n c hc
    simp only [compositions] at hc
    split_ifs at hc with h
    · simp only [List.mem_singleton] at hc
      subst hc
      simp [h]
    · simp at hc
  | succ k ih =>
    intro n c hc
    simp only [compositions, List.mem_flatMap, List.mem_map, List.mem_range] at hc
    obtain ⟨j, hj, c', hc', rfl⟩ := hc
    obtain ⟨hl, hs⟩ := ih (n - j) c' hc'
    refine ⟨by simp [hl], ?_⟩
    simp only [List.sum_cons, hs]
    omega

/-- Helper: the all-zero composition is feasible for a zero total. -/
theorem replicate_zero_mem_compositions (k : ℕ) :
    List.replicate k 0 ∈ compositions k 0 := by
  induction k with
  | zero => simp [compositions]
  | succ k ih =>
    simp only [compositions, List.mem_flatMap, List.mem_map, List.mem_range]
    exact ⟨0, by omega, List.replicate k 0, ih, rfl⟩

/-- Helper: putting the whole total on the first channel is feasible, so the
feasible grid is never empty when at least one channel exists. -/
theorem cons_replicate_mem_compositions (k n : ℕ) :
    (n :: List.replicate k 0) ∈ compositions (k + 1) n := by
  simp only [compositions, List.mem_flatMap, List.mem_map, List.mem_range]
  exact ⟨n, by omega, List.replicate k 0,
    by simpa [Nat.sub_self] using replicate_zero_mem_compositions k, rfl⟩

/-- First-minimum selection over a candidate list, the role scipy minimize
plays in the snippet; none only on an empty candidate list. -/
def argmin_by {α : Type*} (f : α → ℚ) : List α → Option α
  | [] => none
  | x :: xs => some (xs.foldl (fun best y => if f y < f best then y else best) x)

/-- Helper: the fold underlying argmin_by keeps the accumulator inside the
accumulator-or-list set. -/
theorem foldl_argmin_mem {α : Type*} (f : α → ℚ) (xs : List α) : ∀ (a : α),
    xs.foldl (fun best y => if f y < f best then y else best) a = a ∨
    xs.foldl (fun best y => if f y < f best then y else best) a ∈ xs := by
  induction xs with
  | nil => intro a; left; rfl
  | cons x xs ih =>
    intro a
    simp only [List.foldl_cons]
    rcases ih (if f x < f a then x else a) with h | h
    · rw [h]
      by_cases hc : f x < f a
      · rw [if_pos hc]; right; exact List.mem_cons_self x xs
      · rw [if_neg hc]; left; rfl
    · right; exact List.mem_cons_of_mem x h

/-- Helper: a selected minimum is one of the candidates. -/
theorem argmin_by_mem {α : Type*} (f : α → ℚ) (l : List α) (m : α)
    (h : argmin_by f l = some m) : m ∈ l := by
  cases l with
  | nil => simp [argmin_by] at h
  | cons x xs =>
    simp only [argmin_by, Option.some.injEq] at h
    rcases foldl_argmin_mem f xs x with h2 | h2
    · rw [h] at h2; rw [h2]; exact List.mem_cons_self x xs
    · rw [h] at h2; exact List.mem_cons_of_mem x h2

/-- Modelled from the spec: the feasible allocations handed to the solver,
every grid point placing a multiple of total_budget over steps on each channel
and summing to total_budget, exactly the constraint set the archived
run_budget_optimization passes to scipy as its equality constraint and bounds. -/
def grid_allocations (steps : ℕ) (total_budget : ℚ) (k : ℕ) : List (List ℚ) :=
  (compositions k steps).map
    (fun c => c.map (fun (m : ℕ) => (m : ℚ) * total_budget / (steps : ℚ)))

/-- Modelled from the spec: core/optimizer.py is not in the tree and the
archived run_budget_optimization delegates the solve to scipy SLSQP with the
equality constraint that channel budgets sum to total_budget and per-channel
bounds from 0 to total_budget. The solve is modelled as exact minimization of
the embedded objective_function over the finite feasible grid; an empty
channel list yields none, as the code fails on its division by the channel
count before solving. -/
def run_budget_optimization (steps : ℕ) (total_budget : ℚ)
    (channel_params : List (ℚ × ℕ)) : Option (List ℚ) :=
  if channel_params.isEmpty then none
  else argmin_by (objective_function channel_params)
    (grid_allocations steps total_budget channel_params.length)

/-- Helper: any allocation the optimizer returns is feasible: it sums exactly
to the total budget, has every amount inside the bounds, has one amount per
channel, and is all-zero at zero budget. -/
theorem run_budget_optimization_sound (steps : ℕ) (total_budget : ℚ)
    (channel_params : List (ℚ × ℕ)) (alloc : List ℚ)
    (hsteps : 0 < steps) (hne : channel_params ≠ []) (hB : 0 ≤ total_budget)
    (h : run_budget_optimization steps total_budget channel_params = some alloc) :
    alloc.sum = total_budget ∧
    (∀ a ∈ alloc, 0 ≤ a ∧ a ≤ total_budget) ∧
    alloc.length = channel_params.length ∧
    (total_budget = 0 → alloc = List.replicate channel_params.length 0) := by
  have hs0 : ((steps : ℚ)) ≠ 0 := Nat.cast_ne_zero.mpr (Nat.pos_iff_ne_zero.mp hsteps)
  have hsQ : (0 : ℚ) < (steps : ℚ) := by
    exact_mod_cast hsteps
  rw [run_budget_optimization, if_neg (by simp [List.isEmpty_iff, hne])] at h
  have hmem := argmin_by_mem _ _ _ h
  rw [grid_allocations, List.mem_map] at hmem
  obtain ⟨c, hc, rfl⟩ := hmem
  obtain ⟨hlen, hsum⟩ := mem_compositions _ _ _ hc
  have hmap_sum : ∀ (l : List ℕ),
      (l.map (fun (m : ℕ) => (m : ℚ) * total_budget / (steps : ℚ))).sum =
        (l.sum : ℚ) * total_budget / (steps : ℚ) := by
    intro l
    induction l with
    | nil => simp
    | cons hd tl ih =>
      simp only [List.map_cons, List.sum_cons, ih, Nat.cast_add]
      ring
  refine ⟨?_, ?_, ?_, ?_⟩
  · rw [hmap_sum, hsum]
    field_simp
  · intro a ha
    rw [List.mem_map] at ha
    obtain ⟨m, hm, rfl⟩ := ha
    have hmle : m ≤ c.sum := List.single_le_sum (fun x _ => Nat.zero_le x) m hm
    have hmleQ : ((m : ℚ)) ≤ (steps : ℚ) := by
      rw [← hsum]; exact_mod_cast hmle
    constructor
    · exact div_nonneg (mul_nonneg (Nat.cast_nonneg m) hB) (le_of_lt hsQ)
    · rw [div_le_iff₀ hsQ]
      calc (m : ℚ) * total_budget ≤ (steps : ℚ) * total_budget :=
            mul_le_mul_of_nonneg_right hmleQ hB
        _ = total_budget * (steps : ℚ) := by ring
  · simp [hlen]
  · intro hB0
    subst hB0
    rw [← hlen]
    refine List.eq_replicate_iff.mpr ⟨by simp, ?_⟩
    intro b hb
    rw [List.mem_map] at hb
    obtain ⟨m, _, rfl⟩ := hb
    simp

/-- Helper: the feasible grid is never empty when at least one channel
exists, so the modelled solve always has a candidate to return. -/
theorem grid_allocations_ne_nil (steps : ℕ) (total_budget : ℚ) (k : ℕ)
    (hk : 0 < k) : grid_allocations steps total_budget k ≠ [] := by
  have hmem := cons_replicate_mem_compositions (k - 1) steps
  rw [Nat.sub_add_cancel hk] at hmem
  intro hnil
  unfold grid_allocations at hnil
  rw [List.map_eq_nil_iff] at hnil
  rw [hnil] at hmem
  exact List.not_mem_nil _ hmem

/-- C1: on every nonempty channel list with nonnegative total budget the
budget optimizer returns an allocation rather than the error value, and that
allocation sums exactly to the total budget (so in particular within any
relative tolerance), has every per-channel amount inside the interval from 0
to the total budget, has one amount per channel, and at total budget 0 is the
all-zero allocation. -/
theorem run_budget_optimization_feasible (steps : ℕ) (total_budget : ℚ)
    (channel_params : List (ℚ × ℕ))
    (hsteps : 0 < steps) (hne : channel_params ≠ []) (hB : 0 ≤ total_budget) :
    ∃ alloc, run_budget_optimization steps total_budget channel_params = some alloc ∧
      alloc.sum = total_budget ∧
      (∀ a ∈ alloc, 0 ≤ a ∧ a ≤ total_budget) ∧
      alloc.length = channel_params.length ∧
      (total_budget = 0 → alloc = List.replicate channel_params.length 0) := by
  have hk : 0 < channel_params.length := List.length_pos.mpr hne
  obtain ⟨x, xs, hxs⟩ := List.exists_cons_of_ne_nil
    (grid_allocations_ne_nil steps total_budget channel_params.length hk)
  have hsome : run_budget_optimization steps total_budget channel_params =
      some (xs.foldl (fun best y =>
        if objective_function channel_params y < objective_function channel_params best
        then y else best) x) := by
    rw [run_budget_optimization, if_neg (by simp [List.isEmpty_iff, hne]), hxs]
    rfl
  exact ⟨_, hsome,
    run_budget_optimization_sound steps total_budget channel_params _
      hsteps hne hB hsome⟩

/-- C1 witness: one channel at total budget 0 with granularity 1; the
optimizer returns the all-zero allocation, not an error. -/
theorem run_budget_optimization_feasible_witness :
    run_budget_optimization 1 0 [((5 : ℚ), 1)] = some [0] := by
  obtain ⟨alloc, hsome, hsum, hbnd, hlen, hz⟩ :=
    run_budget_optimization_feasible 1 0 [((5 : ℚ), 1)] (by norm_num) (by simp)
      (by norm_num)
  rw [hz rfl] at hsome
  simpa using hsome

/-- One immutable version record of the model registry: the version id and
the stored params, metrics and reason blobs. -/
structure Version where
  vid : ℕ
  params : String
  metrics : String
  reason : String
deriving DecidableEq

/-- Per-model registry entry: the version history and the current pointer. -/
structure ModelEntry where
  versions : List Version
  current : ℕ
deriving DecidableEq

/-- Modelled from the spec: core/model_registry.py is not in the tree, only
its documented call surface in ALGORITHM_MAINTENANCE.md; the registry is the
per-model-name store of version files plus the current pointer. -/
abbrev Registry := List (String × ModelEntry)

/-- The registry with no model names, the starting state. -/
def emptyRegistry : Registry := []

/-- The entry stored under a model name, if any. -/
def getEntry (reg : Registry) (name : String) : Option ModelEntry :=
  (reg.find? (fun kv => decide (kv.1 = name))).map (fun kv => kv.2)

/-- Replace the entry under a model name, or append it when absent. -/
def setEntry : Registry → String → ModelEntry → Registry
  | [], name, e => [(name, e)]
  | kv :: rest, name, e =>
    if kv.1 = name then (name, e) :: rest else kv :: setEntry rest name e

/-- Modelled from the spec: save_snapshot appends a fresh version record
under the next version id and moves the current pointer to it, returning the
new id; existing version records are never touched. -/
def save_snapshot (reg : Registry) (name : String) (params metrics reason : String) :
    Registry × ℕ :=
  let entry := (getEntry reg name).getD ⟨[], 0⟩
  let vid := entry.versions.length
  (setEntry reg name ⟨entry.versions ++ [⟨vid, params, metrics, reason⟩], vid⟩, vid)

/-- Modelled from the spec: rollback moves only the current pointer, and only
to a version id that exists in the history. -/
def rollback (reg : Registry) (name : String) (vid : ℕ) : Registry :=
  ((getEntry reg name).map (fun entry =>
    if entry.versions.any (fun v => decide (v.vid = vid)) then
      setEntry reg name ⟨entry.versions, vid⟩
    else reg)).getD reg

/-- Modelled from the spec: load_current returns the params blob of the
version the current pointer names. -/
def load_current (reg : Registry) (name : String) : Option String :=
  (getEntry reg name).bind
    (fun entry => (entry.versions.find? (fun v => decide (v.vid = entry.current))).map
      (fun v => v.params))

/-- The params blob stored under a given version id of a given model name. -/
def lookupVersion (reg : Registry) (name : String) (vid : ℕ) : Option String :=
  (getEntry reg name).bind
    (fun entry => (entry.versions.find? (fun v => decide (v.vid = vid))).map
      (fun v => v.params))

/-- The registry operations exposed to the rest of the system. -/
inductive RegOp where
  | save (name params metrics reason : String)
  | roll (name : String) (vid : ℕ)

/-- One registry operation applied to a state. -/
def applyOp (reg : Registry) : RegOp → Registry
  | .save name params metrics reason => (save_snapshot reg name params metrics reason).1
  | .roll name vid => rollback reg name vid

/-- A sequence of registry operations applied in order. -/
def applyOps (ops : List RegOp) (reg : Registry) : Registry :=
  ops.foldl applyOp reg

/-- Helper: setting an entry makes it the one retrieved under its name. -/
theorem getEntry_setEntry_self (reg : Registry) (name : String) (e : ModelEntry) :
    getEntry (setEntry reg name e) name = some e := by
  induction reg with
  | nil => simp [setEntry, getEntry]
  | cons kv rest ih =>
    by_cases hk : kv.1 = name
    · simp [setEntry, hk, getEntry]
    · simp only [setEntry, if_neg hk, getEntry] at ih ⊢
      rw [List.find?_cons_of_neg _ (by simpa using hk)]
      exact ih

/-- Helper: setting an entry leaves every other name untouched. -/
theorem getEntry_setEntry_ne (reg : Registry) (name name2 : String) (e : ModelEntry)
    (h : name2 ≠ name) : getEntry (setEntry reg name e) name2 = getEntry reg name2 := by
  induction reg with
  | nil =>
    simp only [setEntry, getEntry]
    rw [List.find?_cons_of_neg _ (by simpa using Ne.symm h)]
  | cons kv rest ih =>
    by_cases hk : kv.1 = name
    · simp only [setEntry, if_pos hk, getEntry]
      rw [List.find?_cons_of_neg _ (by simpa using Ne.symm h),
        List.find?_cons_of_neg _ (by simp [hk]; exact fun hc => (h (hk ▸ hc.symm)).elim)]
    · simp only [setEntry, if_neg hk, getEntry] at ih ⊢
      by_cases hq : kv.1 = name2
      · rw [List.find?_cons_of_pos _ (by simpa using hq),
          List.find?_cons_of_pos _ (by simpa using hq)]
      · rw [List.find?_cons_of_neg _ (by simpa using hq),
          List.find?_cons_of_neg _ (by simpa using hq)]
        exact ih

/-- Version histories are well formed when the stored version ids are exactly
0, 1, up to one less than the history length, in order. -/
def WFEntry (e : ModelEntry) : Prop :=
  e.versions.map Version.vid = List.range e.versions.length

/-- A registry is well formed when every stored entry is. -/
def WFReg (reg : Registry) : Prop :=
  ∀ name e, getEntry reg name = some e → WFEntry e

/-- Helper: the empty registry is well formed. -/
theorem wfReg_empty : WFReg emptyRegistry := by
  intro name e h
  simp [getEntry, emptyRegistry] at h

/-- Helper: appending the next version id keeps an entry well formed. -/
theorem wfEntry_save (e : ModelEntry) (he : WFEntry e) (p m r : String) :
    WFEntry ⟨e.versions ++ [⟨e.versions.length, p, m, r⟩], e.versions.length⟩ := by
  unfold WFEntry at he ⊢
  simp only [List.map_append, List.length_append, List.map_cons, List.map_nil,
    List.length_cons, List.length_nil]
  rw [he, List.range_succ]

/-- Helper: each registry operation preserves well-formedness. -/
theorem wfReg_applyOp (reg : Registry) (op : RegOp) (h : WFReg reg) :
    WFReg (applyOp reg op) := by
  cases op with
  | save name p m r =>
    intro name2 e2 h2
    simp only [applyOp, save_snapshot] at h2
    by_cases hn : name2 = name
    · subst hn
      rw [getEntry_setEntry_self] at h2
      obtain rfl := Option.some.inj h2
      have hwf : WFEntry ((getEntry reg name2).getD ⟨[], 0⟩) := by
        cases hget : getEntry reg name2 with
        | none => simp [WFEntry]
        | some e0 => simpa using h _ _ hget
      exact wfEntry_save _ hwf p m r
    · rw [getEntry_setEntry_ne _ _ _ _ hn] at h2
      exact h _ _ h2
  | roll name vid =>
    intro name2 e2 h2
    simp only [applyOp] at h2
    cases hget : getEntry reg name with
    | none =>
      rw [rollback, hget] at h2
      simp only [Option.map_none', Option.getD_none] at h2
      exact h _ _ h2
    | some entry =>
      rw [rollback, hget] at h2
      simp only [Option.map_some', Option.getD_some] at h2
      by_cases hany : entry.versions.any (fun v => decide (v.vid = vid)) = true
      · rw [if_pos hany] at h2
        by_cases hn : name2 = name
        · subst hn
          rw [getEntry_setEntry_self] at h2
          obtain rfl := Option.some.inj h2
          have := h _ _ hget
          unfold WFEntry at this ⊢
          simpa using this
        · rw [getEntry_setEntry_ne _ _ _ _ hn] at h2
          exact h _ _ h2
      · rw [if_neg hany] at h2
        exact h _ _ h2

/-- Helper: every state reachable from the empty registry is well formed. -/
theorem wfReg_applyOps (ops : List RegOp) : ∀ (reg : Registry), WFReg reg →
    WFReg (applyOps ops reg) := by
  induction ops with
  | nil => intro reg h; exact h
  | cons op ops ih =>
    intro reg h
    exact ih _ (wfReg_applyOp _ _ h)

/-- Helper: a find hit in a prefix survives an append. -/
theorem find?_append_of_some {α : Type*} (p : α → Bool) (l1 l2 : List α) (x : α)
    (h : l1.find? p = some x) : (l1 ++ l2).find? p = some x := by
  induction l1 with
  | nil => simp at h
  | cons a l1 ih =>
    rw [List.cons_append]
    by_cases hp : p a = true
    · rw [List.find?_cons_of_pos _ hp] at h ⊢
      exact h
    · rw [List.find?_cons_of_neg _ hp] at h ⊢
      exact ih h

/-- Helper: a find miss in a prefix defers to the appended part. -/
theorem find?_append_of_none {α : Type*} (p : α → Bool) (l1 l2 : List α)
    (h : l1.find? p = none) : (l1 ++ l2).find? p = l2.find? p := by
  induction l1 with
  | nil => simp
  | cons a l1 ih =>
    rw [List.cons_append]
    by_cases hp : p a = true
    · rw [List.find?_cons_of_pos _ hp] at h
      exact absurd h (by simp)
    · rw [List.find?_cons_of_neg _ hp] at h
      rw [List.find?_cons_of_neg _ hp]
      exact ih h

/-- Helper: in a well-formed entry no stored version carries the next id. -/
theorem find?_fresh_vid (e : ModelEntry) (he : WFEntry e) :
    e.versions.find? (fun v => decide (v.vid = e.versions.length)) = none := by
  rw [List.find?_eq_none]
  intro v hv
  simp only [decide_eq_true_eq]
  intro hvid
  have hmem : v.vid ∈ e.versions.map Version.vid := List.mem_map_of_mem _ hv
  rw [he, List.mem_range] at hmem
  omega

/-- Helper: no later operation changes the params stored under an existing
version id. -/
theorem lookupVersion_applyOp (reg : Registry) (op : RegOp) (name : String)
    (vid : ℕ) (p : String) (h : lookupVersion reg name vid = some p) :
    lookupVersion (applyOp reg op) name vid = some p := by
  simp only [lookupVersion, Option.bind_eq_some, Option.map_eq_some'] at h
  obtain ⟨e, hget, v, hfind, hv⟩ := h
  cases op with
  | save name2 pr m re =>
    simp only [applyOp, save_snapshot]
    by_cases hn : name = name2
    · subst hn
      rw [lookupVersion, getEntry_setEntry_self]
      simp only [hget, Option.getD_some, Option.some_bind]
      rw [find?_append_of_some _ _ _ _ hfind]
      simp [hv]
    · rw [lookupVersion, getEntry_setEntry_ne _ _ _ _ hn]
      simp only [hget, Option.some_bind]
      rw [hfind]
      simp [hv]
  | roll name2 vid2 =>
    simp only [applyOp]
    rw [rollback]
    cases hget2 : getEntry reg name2 with
    | none =>
      simp only [Option.map_none', Option.getD_none, lookupVersion, hget,
        Option.some_bind]
      rw [hfind]
      simp [hv]
    | some entry2 =>
      simp only [Option.map_some', Option.getD_some]
      by_cases hany : entry2.versions.any (fun v => decide (v.vid = vid2)) = true
      · rw [if_pos hany]
        by_cases hn : name = name2
        · subst hn
          rw [lookupVersion, getEntry_setEntry_self]
          obtain rfl : e = entry2 := Option.some.inj (hget.symm.trans hget2)
          simp only [Option.some_bind]
          rw [hfind]
          simp [hv]
        · rw [lookupVersion, getEntry_setEntry_ne _ _ _ _ hn]
          simp only [hget, Option.some_bind]
          rw [hfind]
          simp [hv]
      · rw [if_neg hany]
        simp only [lookupVersion, hget, Option.some_bind]
        rw [hfind]
        simp [hv]

/-- Helper: rolling back to a stored version and loading the current params
returns exactly the stored blob. -/
theorem load_current_rollback (reg : Registry) (name : String) (vid : ℕ)
    (p : String) (h : lookupVersion reg name vid = some p) :
    load_current (rollback reg name vid) name = some p := by
  simp only [lookupVersion, Option.bind_eq_some, Option.map_eq_some'] at h
  obtain ⟨e, hget, v, hfind, hv⟩ := h
  have hany : e.versions.any (fun w => decide (w.vid = vid)) = true := by
    rw [List.any_eq_true]
    refine ⟨v, List.mem_of_find?_eq_some hfind, ?_⟩
    simpa using List.find?_some hfind
  rw [rollback, hget]
  simp only [Option.map_some', Option.getD_some]
  rw [if_pos hany, load_current, getEntry_setEntry_self]
  simp only [Option.some_bind]
  rw [hfind]
  simp [hv]

/-- Helper: the next version id of a model name is not stored in a
well-formed registry. -/
theorem lookupVersion_at_length_none (reg : Registry) (name : String)
    (hwf : WFReg reg) (n : ℕ)
    (hn : n = ((getEntry reg name).getD ⟨[], 0⟩).versions.length) :
    lookupVersion reg name n = none := by
  unfold lookupVersion
  cases hget : getEntry reg name with
  | none => rfl
  | some e0 =>
    simp only [Option.some_bind]
    rw [hget] at hn
    simp only [Option.getD_some] at hn
    subst hn
    rw [find?_fresh_vid e0 (by simpa using hwf _ _ hget)]
    rfl

/-- Helper: on a well-formed registry a saved snapshot gets a version id not
present before, and the new blob is stored under it afterwards. -/
theorem save_snapshot_fresh (reg : Registry) (name pr m re : String)
    (hwf : WFReg reg) :
    lookupVersion reg name (save_snapshot reg name pr m re).2 = none ∧
    lookupVersion (save_snapshot reg name pr m re).1 name
      (save_snapshot reg name pr m re).2 = some pr := by
  have hwfe : WFEntry ((getEntry reg name).getD ⟨[], 0⟩) := by
    cases hget : getEntry reg name with
    | none => simp [WFEntry]
    | some e0 => simpa using hwf _ _ hget
  constructor
  · exact lookupVersion_at_length_none reg name hwf _ rfl
  · show lookupVersion
      (setEntry reg name
        ⟨((getEntry reg name).getD ⟨[], 0⟩).versions ++
          [⟨((getEntry reg name).getD ⟨[], 0⟩).versions.length, pr, m, re⟩],
          ((getEntry reg name).getD ⟨[], 0⟩).versions.length⟩)
      name (((getEntry reg name).getD ⟨[], 0⟩).versions.length) = some pr
    rw [lookupVersion, getEntry_setEntry_self]
    simp only [Option.some_bind]
    rw [find?_append_of_none _ _ _ (find?_fresh_vid _ hwfe)]
    simp

/-- C5: for every operation sequence from the empty registry, a stored
version blob survives any further operation unchanged, save_snapshot hands
out a version id that did not exist before and stores the new blob under it,
and rollback to a stored version followed by load_current returns exactly
that version's params blob. -/
theorem registry_versions_immutable (ops : List RegOp) (name : String)
    (vid : ℕ) (p : String)
    (h : lookupVersion (applyOps ops emptyRegistry) name vid = some p) :
    (∀ op : RegOp,
      lookupVersion (applyOp (applyOps ops emptyRegistry) op) name vid = some p) ∧
    (∀ (name2 pr m re : String),
      lookupVersion (applyOps ops emptyRegistry) name2
        (save_snapshot (applyOps ops emptyRegistry) name2 pr m re).2 = none ∧
      lookupVersion (save_snapshot (applyOps ops emptyRegistry) name2 pr m re).1 name2
        (save_snapshot (applyOps ops emptyRegistry) name2 pr m re).2 = some pr) ∧
    load_current (rollback (applyOps ops emptyRegistry) name vid) name = some p := by
  have hwf : WFReg (applyOps ops emptyRegistry) := wfReg_applyOps ops _ wfReg_empty
  refine ⟨?_, ?_, ?_⟩
  · intro op
    exact lookupVersion_applyOp _ op _ _ _ h
  · intro name2 pr m re
    exact save_snapshot_fresh _ name2 pr m re hwf
  · exact load_current_rollback _ _ _ _ h

/-- C5 witness: after saving blobs a then b under model m, rolling back to
version 0 and loading the current params returns exactly blob a. -/
theorem registry_versions_immutable_witness :
    load_current (rollback (applyOps [RegOp.save "m" "a" "x" "y",
      RegOp.save "m" "b" "x" "y"] emptyRegistry) "m" 0) "m" = some "a" :=
  (registry_versions_immutable [RegOp.save "m" "a" "x" "y",
    RegOp.save "m" "b" "x" "y"] "m" 0 "a" (by decide)).2.2

/-- Result record of a drift check: the flag and the recommendation text, the
only things a drift check produces. -/
structure DriftResult where
  drift_detected : Bool
  recommendation : String
deriving DecidableEq

/-- Modelled from the spec: core/drift_detector.py is not in the tree; per
ALGORITHM_MAINTENANCE.md the ECLAT drift check flags drift when the relative
basket-size change exceeds 25 percent or the relative bundle-support drop
exceeds 40 percent, and returns only the flag and a recommendation. -/
def check_eclat_drift (current_basket_size historical_basket_size
    current_top_bundle_support historical_top_bundle_support : ℚ) : DriftResult :=
  if |current_basket_size - historical_basket_size| / historical_basket_size > 1/4 ∨
      (historical_top_bundle_support - current_top_bundle_support) /
        historical_top_bundle_support > 2/5 then
    ⟨true, "retrain"⟩
  else ⟨false, "continue"⟩

/-- The two execution modes of the maintenance orchestrator; dry-run is the
default and the live flag is the explicit caller consent. -/
inductive RunMode where
  | dryRun
  | live
deriving DecidableEq

/-- Modelled from the spec: the orchestrator of the MAINTENANCE FLOW diagram
in ALGORITHM_MAINTENANCE.md (scripts/model_maintenance.py is not in the
tree); in live mode a detected drift followed by a passed validation saves
and promotes a retrained candidate, and in dry-run mode nothing is written. -/
def model_maintenance (mode : RunMode) (reg : Registry) (modelName : String)
    (drift : DriftResult) (candidateParams : String)
    (validationPassed : Bool) : Registry :=
  match mode with
  | .dryRun => reg
  | .live =>
    if drift.drift_detected && validationPassed then
      (save_snapshot reg modelName candidateParams "retrained" "drift_detected").1
    else reg

/-- C6: exceeding a drift threshold only sets the flag and the retrain
recommendation in the returned record; without the explicit live-mode
consent neither one maintenance run nor any sequence of runs ever changes
the registry, so no model is replaced or promoted automatically. -/
theorem drift_never_retrains_without_consent (mode : RunMode) (reg : Registry)
    (modelName candidateParams : String) (drift : DriftResult)
    (validationPassed : Bool) (cb hb cs hs : ℚ) (h : mode ≠ RunMode.live) :
    model_maintenance mode reg modelName drift candidateParams validationPassed = reg ∧
    (∀ (runs : List (String × DriftResult × String × Bool)),
      runs.foldl (fun r s => model_maintenance mode r s.1 s.2.1 s.2.2.1 s.2.2.2) reg
        = reg) ∧
    ((check_eclat_drift cb hb cs hs).recommendation = "retrain" ↔
      |cb - hb| / hb > 1/4 ∨ (hs - cs) / hs > 2/5) := by
  have hmode : mode = RunMode.dryRun := by
    cases mode with
    | dryRun => rfl
    | live => exact absurd rfl h
  subst hmode
  refine ⟨rfl, ?_, ?_⟩
  · intro runs
    induction runs with
    | nil => rfl
    | cons r rs ih =>
      simp only [List.foldl_cons]
      exact ih
  · simp only [check_eclat_drift]
    by_cases hc : |cb - hb| / hb > 1/4 ∨ (hs - cs) / hs > 2/5
    · rw [if_pos hc]
      exact iff_of_true rfl hc
    · rw [if_neg hc]
      exact iff_of_false (by decide) hc

/-- C6 witness: a dry-run maintenance pass on the empty registry with a
detected drift and a passing validation leaves the registry unchanged. -/
theorem drift_never_retrains_without_consent_witness :
    model_maintenance RunMode.dryRun emptyRegistry "m" ⟨true, "retrain"⟩ "c" true
      = emptyRegistry :=
  (drift_never_retrains_without_consent RunMode.dryRun emptyRegistry "m" "c"
    ⟨true, "retrain"⟩ true 2 1 0 1 (by decide)).1

/-- Arithmetic mean of a sample list. -/
def mean (l : List ℚ) : ℚ := l.sum / (l.length : ℚ)

/-- Linear interpolation between adjacent entries of a sorted list at a
fractional position, the percentile kernel of the numpy convention the
missing optimizer delegates to. -/
def interp (sorted : List ℚ) (pos : ℚ) : ℚ :=
  if (Int.floor pos).toNat + 1 < sorted.length then
    sorted.getD (Int.floor pos).toNat 0 +
      (pos - ((Int.floor pos).toNat : ℚ)) *
        (sorted.getD ((Int.floor pos).toNat + 1) 0 -
          sorted.getD (Int.floor pos).toNat 0)
  else sorted.getD (Int.floor pos).toNat 0

/-- Modelled from the spec: the p-th percentile of the repeated-resolve
samples, numpy linear-interpolation convention, used for the 10 and 90
percent interval bounds of the uncertainty output. -/
def percentile (samples : List ℚ) (p : ℚ) : ℚ :=
  if samples.length = 0 then 0
  else interp (samples.insertionSort (· ≤ ·))
    (p / 100 * ((samples.length : ℚ) - 1))

/-- The scalar uncertainty output: point estimate with interval bounds. -/
structure UncertaintyResult where
  point_estimate : ℚ
  lower : ℚ
  upper : ℚ
deriving DecidableEq

/-- Modelled from the spec: run_budget_optimization_bayesian in the missing
core/optimizer.py aggregates the repeated-resolve samples of each scalar into
a mean point estimate with 10th percentile lower and 90th percentile upper
bounds. -/
def uncertainty_interval (samples : List ℚ) : UncertaintyResult :=
  ⟨mean samples, percentile samples 10, percentile samples 90⟩

/-- Helper: reading a sorted list at a larger index gives a larger value. -/
theorem sorted_getD_mono (L : List ℚ) (hL : L.Sorted (· ≤ ·)) (i j : ℕ)
    (hij : i ≤ j) (hj : j < L.length) : L.getD i 0 ≤ L.getD j 0 := by
  have hi : i < L.length := lt_of_le_of_lt hij hj
  rw [List.getD_eq_getElem L 0 hi, List.getD_eq_getElem L 0 hj]
  have h2 := List.Sorted.rel_get_of_le hL (a := ⟨i, hi⟩) (b := ⟨j, hj⟩) hij
  simpa [List.get_eq_getElem] using h2

/-- Helper: the interpolation kernel is monotone in the position over a
sorted list. -/
theorem interp_mono (L : List ℚ) (hL : L.Sorted (· ≤ ·)) (p q : ℚ)
    (hp : 0 ≤ p) (hpq : p ≤ q) (hq : q ≤ (L.length : ℚ) - 1) :
    interp L p ≤ interp L q := by
  have hq0 : 0 ≤ q := le_trans hp hpq
  have hfp0 : (0 : ℤ) ≤ ⌊p⌋ := Int.floor_nonneg.mpr hp
  have hfq0 : (0 : ℤ) ≤ ⌊q⌋ := Int.floor_nonneg.mpr hq0
  have hieq : ((⌊p⌋.toNat : ℚ)) = (⌊p⌋ : ℚ) := by exact_mod_cast Int.toNat_of_nonneg hfp0
  have hjeq : ((⌊q⌋.toNat : ℚ)) = (⌊q⌋ : ℚ) := by exact_mod_cast Int.toNat_of_nonneg hfq0
  have hfracp0 : 0 ≤ p - (⌊p⌋.toNat : ℚ) := by
    rw [hieq]; linarith [Int.floor_le p]
  have hfracp1 : p - (⌊p⌋.toNat : ℚ) < 1 := by
    rw [hieq]; linarith [Int.lt_floor_add_one p]
  have hfracq0 : 0 ≤ q - (⌊q⌋.toNat : ℚ) := by
    rw [hjeq]; linarith [Int.floor_le q]
  have hlen1 : 1 ≤ L.length := by
    by_contra hcon
    have h0 : L.length = 0 := by omega
    rw [h0] at hq
    simp at hq
    linarith
  have hjlt : ⌊q⌋.toNat < L.length := by
    have h1 : ⌊q⌋ ≤ ⌊((L.length : ℚ) - 1)⌋ := Int.floor_mono hq
    have h2 : ⌊((L.length : ℚ) - 1)⌋ = (L.length : ℤ) - 1 := by
      rw [show ((L.length : ℚ) - 1) = (((L.length : ℤ) - 1 : ℤ) : ℚ) from by push_cast; ring,
        Int.floor_intCast]
    omega
  have hij : ⌊p⌋.toNat ≤ ⌊q⌋.toNat := by
    have := Int.floor_mono hpq
    omega
  simp only [interp]
  by_cases hcase : ⌊p⌋.toNat = ⌊q⌋.toNat
  · rw [hcase]
    by_cases hif : ⌊q⌋.toNat + 1 < L.length
    · rw [if_pos hif, if_pos hif]
      have hd : 0 ≤ L.getD (⌊q⌋.toNat + 1) 0 - L.getD ⌊q⌋.toNat 0 :=
        sub_nonneg.mpr (sorted_getD_mono L hL _ _ (Nat.le_succ _) hif)
      have hfr : p - (⌊q⌋.toNat : ℚ) ≤ q - (⌊q⌋.toNat : ℚ) := by linarith
      nlinarith
    · rw [if_neg hif, if_neg hif]
  · have hilt : ⌊p⌋.toNat < ⌊q⌋.toNat := lt_of_le_of_ne hij hcase
    have hi1 : ⌊p⌋.toNat + 1 ≤ ⌊q⌋.toNat := hilt
    have hi1lt : ⌊p⌋.toNat + 1 < L.length := lt_of_le_of_lt hi1 hjlt
    have s1 : (if ⌊p⌋.toNat + 1 < L.length then
        L.getD ⌊p⌋.toNat 0 + (p - (⌊p⌋.toNat : ℚ)) *
          (L.getD (⌊p⌋.toNat + 1) 0 - L.getD ⌊p⌋.toNat 0)
      else L.getD ⌊p⌋.toNat 0) ≤ L.getD (⌊p⌋.toNat + 1) 0 := by
      rw [if_pos hi1lt]
      have hd : 0 ≤ L.getD (⌊p⌋.toNat + 1) 0 - L.getD ⌊p⌋.toNat 0 :=
        sub_nonneg.mpr (sorted_getD_mono L hL _ _ (Nat.le_succ _) hi1lt)
      nlinarith
    have s2 : L.getD (⌊p⌋.toNat + 1) 0 ≤ L.getD ⌊q⌋.toNat 0 :=
      sorted_getD_mono L hL _ _ hi1 hjlt
    have s3 : L.getD ⌊q⌋.toNat 0 ≤ (if ⌊q⌋.toNat + 1 < L.length then
        L.getD ⌊q⌋.toNat 0 + (q - (⌊q⌋.toNat : ℚ)) *
          (L.getD (⌊q⌋.toNat + 1) 0 - L.getD ⌊q⌋.toNat 0)
      else L.getD ⌊q⌋.toNat 0) := by
      by_cases hif : ⌊q⌋.toNat + 1 < L.length
      · rw [if_pos hif]
        have hd : 0 ≤ L.getD (⌊q⌋.toNat + 1) 0 - L.getD ⌊q⌋.toNat 0 :=
          sub_nonneg.mpr (sorted_getD_mono L hL _ _ (Nat.le_succ _) hif)
        nlinarith
      · rw [if_neg hif]
    linarith

/-- Helper: the lower percentile bound never exceeds the upper one. -/
theorem percentile_mono (samples : List ℚ) (p q : ℚ) (h0 : 0 ≤ p)
    (hpq : p ≤ q) (h100 : q ≤ 100) :
    percentile samples p ≤ percentile samples q := by
  unfold percentile
  by_cases hlen : samples.length = 0
  · rw [if_pos hlen, if_pos hlen]
  · rw [if_neg hlen, if_neg hlen]
    have hsorted : (samples.insertionSort (· ≤ ·)).Sorted (· ≤ ·) :=
      List.sorted_insertionSort _ _
    have hlenq : (samples.insertionSort (· ≤ ·)).length = samples.length :=
      (List.perm_insertionSort _ _).length_eq
    have hn1 : 1 ≤ samples.length := Nat.one_le_iff_ne_zero.mpr hlen
    have hnn : (0 : ℚ) ≤ (samples.length : ℚ) - 1 := by
      have : (1 : ℚ) ≤ (samples.length : ℚ) := by exact_mod_cast hn1
      linarith
    refine interp_mono _ hsorted _ _ ?_ ?_ ?_
    · exact mul_nonneg (div_nonneg h0 (by norm_num)) hnn
    · exact mul_le_mul_of_nonneg_right (by linarith) hnn
    · rw [hlenq]
      have hq1 : q / 100 ≤ 1 := by linarith
      calc q / 100 * ((samples.length : ℚ) - 1) ≤ 1 * ((samples.length : ℚ) - 1) :=
            mul_le_mul_of_nonneg_right hq1 hnn
        _ = (samples.length : ℚ) - 1 := one_mul _

/-- Helper: the mean of a nonempty sample list lies between any bounds
enclosing every sample. -/
theorem mean_mem_bounds (l : List ℚ) (lo hi : ℚ) (hne : l ≠ [])
    (hb : ∀ x ∈ l, lo ≤ x ∧ x ≤ hi) : lo ≤ mean l ∧ mean l ≤ hi := by
  have hlen : (0 : ℚ) < (l.length : ℚ) := by
    have : 0 < l.length := List.length_pos.mpr hne
    exact_mod_cast this
  have hsum_le : l.sum ≤ l.length • hi :=
    List.sum_le_card_nsmul l hi (fun x hx => (hb x hx).2)
  have hle_sum : l.length • lo ≤ l.sum :=
    List.card_nsmul_le_sum l lo (fun x hx => (hb x hx).1)
  rw [nsmul_eq_mul] at hsum_le hle_sum
  constructor
  · rw [mean, le_div_iff₀ hlen]
    linarith
  · rw [mean, div_le_iff₀ hlen]
    linarith

/-- C7 counterexample: on the 12 repeated-resolve samples consisting of
eleven zeros and one 1, the mean point estimate 1/12 exceeds the 90th
percentile upper bound 0, so lower ≤ point_estimate ≤ upper fails. -/
theorem uncertainty_mean_outside_band :
    ¬ ((uncertainty_interval (List.replicate 11 (0:ℚ) ++ [1])).lower ≤
        (uncertainty_interval (List.replicate 11 (0:ℚ) ++ [1])).point_estimate ∧
      (uncertainty_interval (List.replicate 11 (0:ℚ) ++ [1])).point_estimate ≤
        (uncertainty_interval (List.replicate 11 (0:ℚ) ++ [1])).upper) := by
  have hins : (List.replicate 11 (0:ℚ) ++ [1]).insertionSort (· ≤ ·) =
      List.replicate 11 0 ++ [1] :=
    List.Sorted.insertionSort_eq (by decide)
  have hpt : mean (List.replicate 11 (0:ℚ) ++ [1]) = 1/12 := by
    norm_num [mean, List.replicate_succ]
  have hfl : (⌊(99/10 : ℚ)⌋) = 9 := by
    norm_num [Int.floor_eq_iff]
  have hup : percentile (List.replicate 11 (0:ℚ) ++ [1]) 90 = 0 := by
    rw [percentile, if_neg (by simp), hins]
    have hpos : (90 : ℚ) / 100 *
        (((List.replicate 11 (0:ℚ) ++ [1]).length : ℚ) - 1) = 99/10 := by
      norm_num
    rw [hpos, interp, hfl]
    rw [show (9 : ℤ).toNat = 9 from rfl]
    norm_num [List.replicate_succ]
  rintro ⟨-, h2⟩
  simp only [uncertainty_interval] at h2
  rw [hpt, hup] at h2
  norm_num at h2

/-- C7 amended: the interval bounds returned by the uncertainty computation
always satisfy lower ≤ upper, and the mean point estimate lies within any
bounds enclosing all samples (so within the sample range), but the mean need
not lie inside the 10th-to-90th percentile band. -/
theorem uncertainty_interval_bounds (samples : List ℚ) (lo hi : ℚ)
    (hne : samples ≠ []) (hb : ∀ x ∈ samples, lo ≤ x ∧ x ≤ hi) :
    (uncertainty_interval samples).lower ≤ (uncertainty_interval samples).upper ∧
    lo ≤ (uncertainty_interval samples).point_estimate ∧
    (uncertainty_interval samples).point_estimate ≤ hi := by
  obtain ⟨h1, h2⟩ := mean_mem_bounds samples lo hi hne hb
  exact ⟨percentile_mono samples 10 90 (by norm_num) (by norm_num) (by norm_num),
    h1, h2⟩

/-- C7 witness: on the samples 1, 2 the bounds are ordered and the point
estimate lies between 1 and 2. -/
theorem uncertainty_interval_bounds_witness :
    (uncertainty_interval [1, 2]).lower ≤ (uncertainty_interval [1, 2]).upper ∧
    (1 : ℚ) ≤ (uncertainty_interval [1, 2]).point_estimate ∧
    (uncertainty_interval [1, 2]).point_estimate ≤ 2 :=
  uncertainty_interval_bounds [1, 2] 1 2 (by simp) (by decide)

end Tactics
